import Mathlib

/-!
Shallow embedding of the `feature` Go package (feature.go): a feature-toggle
resolver that consults, in order, a request context, the process environment
and a process-wide default registry, plus an HTTP-request extractor that
copies `feature-` query parameters and `x-feature-` headers into a derived
context.
-/

set_option autoImplicit false

namespace Feat

/-- A flag name; Go declares `type Feature string`. -/
abbrev Feature := String

/-- ASCII lower-casing of one character, as `strings.ToLower` acts on
the ASCII range (the only range the package's inputs use). -/
def charLower (c : Char) : Char := c.toLower

/-- ASCII upper-casing of one character, as `strings.ToUpper` acts on
the ASCII range. -/
def charUpper (c : Char) : Char := c.toUpper

/-- Embedding of `strings.ToLower`. -/
def goToLower (s : String) : String := ⟨s.data.map charLower⟩

/-- Embedding of `strings.ToUpper`. -/
def goToUpper (s : String) : String := ⟨s.data.map charUpper⟩

/-- Embedding of `strings.HasPrefix`, computed on the character lists. -/
def goHasPrefix (s pfx : String) : Bool := pfx.data.isPrefixOf s.data

/-- Dropping the first `n` characters of a string. -/
def goDropChars (s : String) (n : Nat) : String := ⟨s.data.drop n⟩

/-- Embedding of `strings.TrimPrefix`: drops `pfx` when it is a prefix of
`s`, otherwise returns `s` unchanged. -/
def goTrimPrefix (s pfx : String) : String :=
  if goHasPrefix s pfx then goDropChars s pfx.length else s

/-- Embedding of Go's `strconv.ParseBool`: the accepted literal spellings
(note that the standard library also accepts `True` and `False`);
`none` models the error return for every other string. -/
def parseBool (s : String) : Option Bool :=
  if s = "1" ∨ s = "t" ∨ s = "T" ∨ s = "true" ∨ s = "TRUE" ∨ s = "True" then
    some true
  else if s = "0" ∨ s = "f" ∨ s = "F" ∨ s = "false" ∨ s = "FALSE" ∨ s = "False" then
    some false
  else
    none

/-- A value stored in a Go `context.Context` under a `Feature`-typed key.
Callers outside the package may store values of any type, so next to
booleans the model keeps an opaque non-boolean alternative; `IsEnabled`'s
type assertion `v.(bool)` panics on the latter. -/
inductive GoVal where
  | bool (b : Bool)
  | nonBool (tag : Nat)
  deriving DecidableEq, Repr

/-- A context chain: `base` is any context holding no value under a
`Feature`-typed key; `withValue parent k v` embeds
`context.WithValue(parent, k, v)` with a `Feature`-typed key. Entries under
keys of other types are invisible to every lookup in the package and are
therefore not modelled. -/
inductive Ctx where
  | base
  | withValue (parent : Ctx) (key : Feature) (v : GoVal)
  deriving DecidableEq, Repr

/-- Embedding of `ctx.Value(key)` for a `Feature`-typed key: the most
recently attached value for that exact key, `none` when the chain holds
none (Go returns `nil`). -/
def ctxValue : Ctx → Feature → Option GoVal
  | Ctx.base, _ => none
  | Ctx.withValue p k v, q => if q = k then some v else ctxValue p q

/-- The parent of the newest link of a chain, if any. -/
def ctxParent : Ctx → Option Ctx
  | Ctx.base => none
  | Ctx.withValue p _ _ => some p

/-- The process environment as `os.Getenv` exposes it: unset variables and
variables set to the empty string are both read as `""`. -/
abbrev Env := String → String

/-- The global default registry `defaultState : map[Feature]bool`.
`none` means no entry; Go map indexing yields `false` for missing keys. -/
abbrev Registry := Feature → Option Bool

/-- The constant `QueryPrefix = "feature-"`. -/
def queryPfx : String := "feature-"

/-- The constant `HeaderPrefix = "x-feature-"`. -/
def headerPfx : String := "x-feature-"

/-- The constant `EnvPrefix = "X_FEATURE_"`. -/
def envPfx : String := "X_FEATURE_"

/-- Embedding of `isEnabledInEnv`: builds `EnvPrefix + strings.ToUpper(name)`,
and when the environment value is non-empty returns the lenient
`strconv.ParseBool` result (errors swallowed to `false`) with `ok = true`;
otherwise `(false, false)`. -/
def isEnabledInEnv (env : Env) (name : Feature) : Bool × Bool :=
  let key := envPfx ++ goToUpper name
  let v := env key
  if v ≠ "" then ((parseBool v).getD false, true) else (false, false)

/-- Embedding of `IsEnabled`: lower-cases the name, then consults the
context (a present non-boolean value makes the type assertion panic,
modelled as `none`), then the environment, then the registry, whose map
indexing defaults to `false`. -/
def IsEnabled (env : Env) (reg : Registry) (ctx : Ctx) (name : Feature) : Option Bool :=
  let n := goToLower name
  match ctxValue ctx n with
  | some (GoVal.bool b) => some b
  | some (GoVal.nonBool _) => none
  | none =>
    let p := isEnabledInEnv env n
    if p.2 then some p.1 else some ((reg n).getD false)

/-- Embedding of `Enable`: sets the registry entry for `name` to `true`
without normalizing `name`. -/
def Enable (reg : Registry) (name : Feature) : Registry :=
  fun g => if g = name then some true else reg g

/-- Embedding of `Disable`: sets the registry entry for `name` to `false`
without normalizing `name`. -/
def Disable (reg : Registry) (name : Feature) : Registry :=
  fun g => if g = name then some false else reg g

/-- Embedding of `EnableInCtx`: `context.WithValue(ctx, f, true)`; the key
`f` is stored verbatim. -/
def EnableInCtx (ctx : Ctx) (f : Feature) : Ctx :=
  Ctx.withValue ctx f (GoVal.bool true)

/-- Embedding of `DisableInCtx`: `context.WithValue(ctx, f, false)`. -/
def DisableInCtx (ctx : Ctx) (f : Feature) : Ctx :=
  Ctx.withValue ctx f (GoVal.bool false)

/-- One collection of `url.Values` (also `http.Header` viewed as
`url.Values`): each pair is a key with its list of values, listed in the
order Go's `for key := range values` visits the (distinct) keys. -/
abbrev Values := List (String × List String)

/-- Embedding of `url.Values.Get`: the first value under the key, `""`
when the list is empty. -/
def valuesGet (vals : List String) : String := vals.headD ""

/-- The body of the loop of `fromValues` for one key: when the lower-cased
key carries the given p-fix, attach the flag (p-fix stripped) with value
`strVal == "" || val` where `val` is the lenient bool parse; otherwise the
context is unchanged. -/
def fromValuesStep (pfx : String) (ctx : Ctx) (kv : String × List String) : Ctx :=
  let lowerKey := goToLower kv.1
  if goHasPrefix lowerKey pfx then
    let trimKey : Feature := goTrimPrefix lowerKey pfx
    let strVal := valuesGet kv.2
    let val := (parseBool strVal).getD false
    Ctx.withValue ctx trimKey (GoVal.bool (strVal = "" || val))
  else ctx

/-- Embedding of `fromValues`: folds the loop body over the collection in
iteration order. -/
def fromValues (ctx : Ctx) (values : Values) (pfx : String) : Ctx :=
  values.foldl (fromValuesStep pfx) ctx

/-- An `*http.Request` as the package consumes it: its context, its parsed
query parameters (`req.URL.Query()`), and its headers. -/
structure Request where
  ctx : Ctx
  query : Values
  header : Values
  deriving DecidableEq, Repr

/-- Embedding of `ReqWithFeatureCtx`: runs `fromValues` over the query with
the query p-fix, then over the headers with the header p-fix, and returns
`req.WithContext(ctx)` — a copy of the request carrying the new context. -/
def ReqWithFeatureCtx (req : Request) : Request :=
  let ctx := req.ctx
  let ctx := fromValues ctx req.query queryPfx
  let ctx := fromValues ctx req.header headerPfx
  { req with ctx := ctx }

/-- The empty environment: every variable unset. -/
def envEmpty : Env := fun _ => ""

/-- The initial registry: no entries. -/
def regEmpty : Registry := fun _ => none

/-- The flag a collection entry's key addresses, if any: defined exactly when
the lower-cased key carries the given p-fix, in which case the p-fix is
stripped off. Mirrors the guard and `trimKey` of `fromValues`. -/
def entryFlag (pfx key : String) : Option Feature :=
  if goHasPrefix (goToLower key) pfx then some (goTrimPrefix (goToLower key) pfx) else none

/-- The boolean `fromValues` records for an entry's value list:
`strVal == "" || val` with `val` the lenient bool parse of the first value. -/
def entryBool (vals : List String) : Bool :=
  valuesGet vals = "" || (parseBool (valuesGet vals)).getD false

/-- The boolean the last entry of a collection addressing flag `k` records,
scanning in iteration order; `none` when no entry addresses `k`. -/
def collectVal (pfx : String) (k : Feature) (l : Values) : Option Bool :=
  l.foldl (fun a kv => if entryFlag pfx kv.1 = some k then some (entryBool kv.2) else a) none

/-- The boolean spellings Go's `strconv.ParseBool` maps to `true`. -/
def trueLits : List String := ["1", "t", "T", "true", "TRUE", "True"]

/-- The boolean spellings Go's `strconv.ParseBool` maps to `false`. -/
def falseLits : List String := ["0", "f", "F", "false", "FALSE", "False"]

/-- The value rule exactly as the claim words it: empty string means `true`,
the five listed spellings `true`, `TRUE`, `t`, `T`, `1` mean `true`, and any
other non-empty value means `false`. (Stated from the claim, to be compared
with the behavior of the source's `strconv.ParseBool`.) -/
def claimLiteralVal (s : String) : Bool :=
  if s = "" then true
  else if s = "true" ∨ s = "TRUE" ∨ s = "t" ∨ s = "T" ∨ s = "1" then true
  else false

/-- Whether a chain `a` appears intact inside `c` as `c` itself or as an
ancestor link of `c`. -/
def isAncestor (a : Ctx) : Ctx → Prop
  | Ctx.base => a = Ctx.base
  | Ctx.withValue p k v => a = Ctx.withValue p k v ∨ isAncestor a p

/-- Whether a context value is a Go `bool`. -/
def isBoolVal : GoVal → Bool
  | GoVal.bool _ => true
  | GoVal.nonBool _ => false

/-- Whether every value the chain stores under a `Feature`-typed key is a
boolean, so `IsEnabled`'s type assertion cannot panic. -/
def ctxAllBool : Ctx → Bool
  | Ctx.base => true
  | Ctx.withValue p _ v => isBoolVal v && ctxAllBool p

/-- The contexts reachable from a base context holding no `Feature`-typed
values by the package's own derivations: `EnableInCtx`, `DisableInCtx`, the
extraction loop `fromValues`, and `ReqWithFeatureCtx`. -/
inductive BuiltCtx : Ctx → Prop where
  | base : BuiltCtx Ctx.base
  | enable (c : Ctx) (f : Feature) : BuiltCtx c → BuiltCtx (EnableInCtx c f)
  | disable (c : Ctx) (f : Feature) : BuiltCtx c → BuiltCtx (DisableInCtx c f)
  | extract (c : Ctx) (l : Values) (pfx : String) : BuiltCtx c → BuiltCtx (fromValues c l pfx)
  | request (r : Request) : BuiltCtx r.ctx → BuiltCtx (ReqWithFeatureCtx r).ctx

end Feat

namespace Feat

/-! Helper lemmas. -/

theorem toNat_ofNat_valid {n : Nat} (h : n.isValidChar) : (Char.ofNat n).toNat = n := by
  rw [Char.ofNat, dif_pos h]
  rfl

theorem charUpper_charLower (c : Char) : charUpper (charLower c) = charUpper c := by
  unfold charUpper charLower Char.toLower Char.toUpper
  by_cases h : c.toNat ≥ 65 ∧ c.toNat ≤ 90
  · rw [if_pos h]
    have hv : (c.toNat + 32).isValidChar := Or.inl (by omega)
    rw [toNat_ofNat_valid hv]
    rw [if_pos (by omega), if_neg (by omega)]
    have h2 : c.toNat + 32 - 32 = c.toNat := by omega
    rw [h2, Char.ofNat_toNat]
  · rw [if_neg h]

theorem goToUpper_goToLower (s : String) : goToUpper (goToLower s) = goToUpper s := by
  unfold goToUpper goToLower
  simp only [List.map_map]
  have h : charUpper ∘ charLower = charUpper := funext charUpper_charLower
  rw [h]

theorem isEnabledInEnv_eq (env : Env) (n : Feature) :
    isEnabledInEnv env n =
      if env (envPfx ++ goToUpper n) = "" then (false, false)
      else ((parseBool (env (envPfx ++ goToUpper n))).getD false, true) := by
  unfold isEnabledInEnv
  by_cases h : env (envPfx ++ goToUpper n) = "" <;> simp [h]

/-- A closed-form restatement of `IsEnabled` used by several proofs: the
environment key is written with the flag name upper-cased directly, which
coincides with upper-casing the lower-cased name. -/
theorem isEnabled_eq (env : Env) (reg : Registry) (ctx : Ctx) (name : Feature) :
    IsEnabled env reg ctx name =
      match ctxValue ctx (goToLower name) with
      | some (GoVal.bool b) => some b
      | some (GoVal.nonBool _) => none
      | none =>
        if env (envPfx ++ goToUpper name) = "" then some ((reg (goToLower name)).getD false)
        else some ((parseBool (env (envPfx ++ goToUpper name))).getD false) := by
  unfold IsEnabled
  cases hv : ctxValue ctx (goToLower name) with
  | some v => cases v <;> simp [hv]
  | none =>
    simp only [hv, isEnabledInEnv_eq, goToUpper_goToLower]
    by_cases h : env (envPfx ++ goToUpper name) = "" <;> simp [h]

theorem ctxValue_fromValuesStep (pfx : String) (ctx : Ctx) (kv : String × List String)
    (k : Feature) :
    ctxValue (fromValuesStep pfx ctx kv) k =
      if entryFlag pfx kv.1 = some k then some (GoVal.bool (entryBool kv.2))
      else ctxValue ctx k := by
  simp only [fromValuesStep, entryFlag, entryBool]
  by_cases hp : goHasPrefix (goToLower kv.1) pfx = true
  · simp only [hp, if_true, ctxValue, Option.some.injEq]
    by_cases hk : k = goTrimPrefix (goToLower kv.1) pfx
    · simp [hk, valuesGet]
    · have hk2 : ¬ goTrimPrefix (goToLower kv.1) pfx = k := fun h => hk h.symm
      simp [hk, hk2]
  · simp [hp]

theorem collectVal_acc (pfx : String) (k : Feature) (l : Values) :
    ∀ a : Option Bool,
      List.foldl (fun a kv => if entryFlag pfx kv.1 = some k then some (entryBool kv.2) else a)
          a l =
        match collectVal pfx k l with
        | some b => some b
        | none => a := by
  induction l with
  | nil => intro a; rfl
  | cons kv tl ih =>
    intro a
    rw [List.foldl_cons, ih]
    have hc : collectVal pfx k (kv :: tl) =
        match collectVal pfx k tl with
        | some b => some b
        | none => if entryFlag pfx kv.1 = some k then some (entryBool kv.2) else none := by
      unfold collectVal
      rw [List.foldl_cons]
      exact ih _
    rw [hc]
    cases h : collectVal pfx k tl <;> by_cases hkv : entryFlag pfx kv.1 = some k <;> simp [hkv]

theorem collectVal_cons (pfx : String) (k : Feature) (kv : String × List String) (tl : Values) :
    collectVal pfx k (kv :: tl) =
      match collectVal pfx k tl with
      | some b => some b
      | none => if entryFlag pfx kv.1 = some k then some (entryBool kv.2) else none := by
  unfold collectVal
  rw [List.foldl_cons]
  exact collectVal_acc pfx k tl _

theorem ctxValue_fromValues (pfx : String) (k : Feature) (l : Values) :
    ∀ ctx : Ctx,
      ctxValue (fromValues ctx l pfx) k =
        match collectVal pfx k l with
        | some b => some (GoVal.bool b)
        | none => ctxValue ctx k := by
  induction l with
  | nil => intro ctx; rfl
  | cons kv tl ih =>
    intro ctx
    have h1 : fromValues ctx (kv :: tl) pfx = fromValues (fromValuesStep pfx ctx kv) tl pfx := rfl
    rw [h1, ih, collectVal_cons, ctxValue_fromValuesStep]
    cases h : collectVal pfx k tl <;> by_cases hkv : entryFlag pfx kv.1 = some k <;> simp [hkv]

theorem ctxAllBool_fromValuesStep (pfx : String) (ctx : Ctx) (kv : String × List String)
    (h : ctxAllBool ctx = true) : ctxAllBool (fromValuesStep pfx ctx kv) = true := by
  unfold fromValuesStep
  by_cases hp : goHasPrefix (goToLower kv.1) pfx = true
  · simp [hp, ctxAllBool, isBoolVal, h]
  · simp [hp, h]

theorem ctxAllBool_fromValues (pfx : String) (l : Values) :
    ∀ ctx : Ctx, ctxAllBool ctx = true → ctxAllBool (fromValues ctx l pfx) = true := by
  induction l with
  | nil => intro ctx h; exact h
  | cons kv tl ih => intro ctx h; exact ih _ (ctxAllBool_fromValuesStep pfx ctx kv h)

theorem ctxValue_allBool (k : Feature) (v : GoVal) :
    ∀ ctx : Ctx, ctxAllBool ctx = true → ctxValue ctx k = some v → ∃ b, v = GoVal.bool b := by
  intro ctx
  induction ctx with
  | base => intro _ hv; simp [ctxValue] at hv
  | withValue p key val ih =>
    intro h hv
    simp only [ctxAllBool, Bool.and_eq_true] at h
    simp only [ctxValue] at hv
    by_cases hk : k = key
    · rw [if_pos hk] at hv
      cases val with
      | bool b => exact ⟨b, (Option.some.inj hv).symm⟩
      | nonBool t => simp [isBoolVal] at h
    · rw [if_neg hk] at hv
      exact ih h.2 hv

theorem isEnabled_isSome_of_allBool (env : Env) (reg : Registry) (ctx : Ctx) (name : Feature)
    (h : ctxAllBool ctx = true) : (IsEnabled env reg ctx name).isSome = true := by
  rw [isEnabled_eq]
  cases hv : ctxValue ctx (goToLower name) with
  | none => by_cases he : env (envPfx ++ goToUpper name) = "" <;> simp [he]
  | some v =>
    obtain ⟨b, rfl⟩ := ctxValue_allBool (goToLower name) v ctx h hv
    rfl

theorem ctxAllBool_of_built : ∀ ctx : Ctx, BuiltCtx ctx → ctxAllBool ctx = true := by
  intro ctx h
  induction h with
  | base => rfl
  | enable c f _ ih => simp [EnableInCtx, ctxAllBool, isBoolVal, ih]
  | disable c f _ ih => simp [DisableInCtx, ctxAllBool, isBoolVal, ih]
  | extract c l pfx _ ih => exact ctxAllBool_fromValues pfx l c ih
  | request r _ ih =>
    exact ctxAllBool_fromValues headerPfx r.header _
      (ctxAllBool_fromValues queryPfx r.query _ ih)

theorem isAncestor_fromValuesStep (pfx : String) (a c : Ctx) (kv : String × List String)
    (h : isAncestor a c) : isAncestor a (fromValuesStep pfx c kv) := by
  unfold fromValuesStep
  by_cases hp : goHasPrefix (goToLower kv.1) pfx = true
  · simp only [hp, if_true]
    exact Or.inr h
  · simp only [hp, if_false]
    exact h

theorem isAncestor_fromValues (pfx : String) (l : Values) :
    ∀ a c : Ctx, isAncestor a c → isAncestor a (fromValues c l pfx) := by
  induction l with
  | nil => intro a c h; exact h
  | cons kv tl ih => intro a c h; exact ih a _ (isAncestor_fromValuesStep pfx a c kv h)

theorem isAncestor_refl (c : Ctx) : isAncestor c c := by
  cases c with
  | base => rfl
  | withValue p k v => exact Or.inl rfl

end Feat

open Feat

example : goToLower "X-Feature-Paginate" = "x-feature-paginate" := by decide
example : parseBool "True" = some true := by decide
example : parseBool "yes" = none := by decide
example : IsEnabled envEmpty regEmpty Ctx.base "paginate" = some false := by decide
example :
    IsEnabled envEmpty regEmpty
      (fromValues Ctx.base [("feature-Paginate", [""])] queryPfx) "PAGINATE" = some true := by
  decide
example :
    IsEnabled (fun k => if k = "X_FEATURE_PAGINATE" then "1" else "") regEmpty
      Ctx.base "paginate" = some true := by
  decide

namespace Feat

/-! The claims. -/

/-- C1: for every context, environment, and registry state, `IsEnabled`
resolves in the fixed order context, then environment, then registry: a
boolean recorded in the context chain is returned with the later layers never
consulted (the result does not mention `env` or `reg`); with no context
entry, a non-empty environment variable decides the result with the registry
never consulted; with no context entry and an unset or empty variable the
registry entry decides; and when no layer defines a value the result is
`false`. -/
theorem isEnabled_precedence (env : Env) (reg : Registry) (ctx : Ctx) (name : Feature) :
    (∀ b : Bool, ctxValue ctx (goToLower name) = some (GoVal.bool b) →
       IsEnabled env reg ctx name = some b) ∧
    (ctxValue ctx (goToLower name) = none → env (envPfx ++ goToUpper name) ≠ "" →
       IsEnabled env reg ctx name =
         some ((parseBool (env (envPfx ++ goToUpper name))).getD false)) ∧
    (ctxValue ctx (goToLower name) = none → env (envPfx ++ goToUpper name) = "" →
       IsEnabled env reg ctx name = some ((reg (goToLower name)).getD false)) ∧
    (ctxValue ctx (goToLower name) = none → env (envPfx ++ goToUpper name) = "" →
       reg (goToLower name) = none → IsEnabled env reg ctx name = some false) := by
  refine ⟨?_, ?_, ?_, ?_⟩
  · intro b hb
    rw [isEnabled_eq, hb]
  · intro hc he
    rw [isEnabled_eq, hc]
    simp [he]
  · intro hc he
    rw [isEnabled_eq, hc]
    simp [he]
  · intro hc he hr
    rw [isEnabled_eq, hc]
    simp [he, hr]

/-- C1 witness: a flag defined nowhere resolves to `false`. -/
theorem isEnabled_precedence_witness :
    IsEnabled envEmpty regEmpty Ctx.base "paginate" = some false :=
  (isEnabled_precedence envEmpty regEmpty Ctx.base "paginate").2.2.2 rfl rfl rfl

/-- C2 counterexample: normalization is not applied at the mutation sites.
`Enable` and `EnableInCtx` store the name verbatim, so after enabling under
the casing `A` (with no context or environment override) `IsEnabled` still
returns `false` for the casing `A` itself, where the claim demands `true`. -/
theorem mutation_not_normalized_cex :
    IsEnabled envEmpty (Enable regEmpty "A") Ctx.base "A" = some false ∧
    IsEnabled envEmpty regEmpty (EnableInCtx Ctx.base "A") "A" = some false ∧
    IsEnabled envEmpty (Enable regEmpty "A") Ctx.base "A" ≠ some true := by
  refine ⟨by decide, by decide, by decide⟩

/-- C2 (amended): normalization is applied at every lookup site — `IsEnabled`
and the extractor lower-case the flag name, the environment lookup
upper-cases it — but not at the mutation sites: `Enable`, `Disable`,
`EnableInCtx` and `DisableInCtx` store the given name verbatim. Hence
case-insensitivity holds end-to-end for mutations made under the normalized
(lower-case) name: after `Enable f` with `f` lower-case and no context or
environment override, `IsEnabled` returns `true` for every casing `g` of `f`,
and after `EnableInCtx ctx f`, `IsEnabled` on the derived context returns
`true` for every casing of `f` regardless of environment and registry. -/
theorem case_insensitive_for_normalized_names (env : Env) (reg : Registry) (ctx : Ctx)
    (f g : Feature) (hf : goToLower f = f) (hg : goToLower g = f) :
    (ctxValue ctx f = none → env (envPfx ++ goToUpper f) = "" →
       IsEnabled env (Enable reg f) ctx g = some true ∧
       IsEnabled env (Disable reg f) ctx g = some false) ∧
    IsEnabled env reg (EnableInCtx ctx f) g = some true ∧
    IsEnabled env reg (DisableInCtx ctx f) g = some false := by
  have hkey : goToUpper g = goToUpper f := by rw [← goToUpper_goToLower g, hg]
  refine ⟨?_, ?_, ?_⟩
  · intro hc he
    constructor <;> rw [isEnabled_eq, hg, hkey, hc] <;> simp [he, Enable, Disable]
  · rw [isEnabled_eq, hg]
    have h : ctxValue (EnableInCtx ctx f) f = some (GoVal.bool true) := by
      simp [EnableInCtx, ctxValue]
    rw [h]
  · rw [isEnabled_eq, hg]
    have h : ctxValue (DisableInCtx ctx f) f = some (GoVal.bool false) := by
      simp [DisableInCtx, ctxValue]
    rw [h]

/-- C2 witness: with the lower-case name `paginate` enabled, every casing
resolves `true`, through the registry and through a derived context. -/
theorem case_insensitive_for_normalized_names_witness :
    IsEnabled envEmpty (Enable regEmpty "paginate") Ctx.base "PAGINATE" = some true ∧
    IsEnabled envEmpty regEmpty (EnableInCtx Ctx.base "paginate") "PAGINATE" = some true :=
  ⟨((case_insensitive_for_normalized_names envEmpty regEmpty Ctx.base "paginate" "PAGINATE"
      (by decide) (by decide)).1 rfl rfl).1,
   (case_insensitive_for_normalized_names envEmpty regEmpty Ctx.base "paginate" "PAGINATE"
      (by decide) (by decide)).2.1⟩

/-- C3: a boolean recorded in the context chain for the normalized flag name
is returned verbatim, whatever the environment and the registry contain —
presence of the entry, not its value, makes the context layer defined. -/
theorem ctx_value_returned_verbatim (env : Env) (reg : Registry) (ctx : Ctx)
    (name : Feature) (b : Bool)
    (h : ctxValue ctx (goToLower name) = some (GoVal.bool b)) :
    IsEnabled env reg ctx name = some b := by
  rw [isEnabled_eq, h]

/-- C3 witness: registry `true`, environment `true`, context `false` resolves
`false`. -/
theorem ctx_value_returned_verbatim_witness :
    ctxValue (DisableInCtx Ctx.base "paginate") (goToLower "paginate") =
      some (GoVal.bool false) ∧
    IsEnabled (fun k => if k = "X_FEATURE_PAGINATE" then "true" else "")
      (Enable regEmpty "paginate") (DisableInCtx Ctx.base "paginate") "paginate" =
      some false :=
  ⟨by decide,
   ctx_value_returned_verbatim (fun k => if k = "X_FEATURE_PAGINATE" then "true" else "")
     (Enable regEmpty "paginate") (DisableInCtx Ctx.base "paginate") "paginate" false
     (by decide)⟩

/-- C4: in `ReqWithFeatureCtx` header processing is applied after query
processing, so whenever the headers define a flag, the derived context holds
the header-derived value whatever the query contains; with no header entry
for the flag the query-derived value is held; and within one collection the
entry processed last overwrites every earlier entry for the same flag. -/
theorem header_after_query (req : Request) (k : Feature) (b : Bool) :
    (collectVal headerPfx k req.header = some b →
       ctxValue (ReqWithFeatureCtx req).ctx k = some (GoVal.bool b)) ∧
    (collectVal headerPfx k req.header = none →
     collectVal queryPfx k req.query = some b →
       ctxValue (ReqWithFeatureCtx req).ctx k = some (GoVal.bool b)) ∧
    (∀ (ctx : Ctx) (l : Values) (kv : String × List String) (pfx : String),
       entryFlag pfx kv.1 = some k →
       ctxValue (fromValues ctx (l ++ [kv]) pfx) k = some (GoVal.bool (entryBool kv.2))) := by
  have hctx : (ReqWithFeatureCtx req).ctx =
      fromValues (fromValues req.ctx req.query queryPfx) req.header headerPfx := rfl
  refine ⟨?_, ?_, ?_⟩
  · intro hh
    rw [hctx, ctxValue_fromValues, hh]
  · intro hh hq
    rw [hctx, ctxValue_fromValues, hh]
    rw [ctxValue_fromValues, hq]
  · intro ctx l kv pfx hkv
    rw [ctxValue_fromValues]
    have h : collectVal pfx k (l ++ [kv]) = some (entryBool kv.2) := by
      unfold collectVal
      rw [List.foldl_append]
      simp [hkv]
    rw [h]

/-- C4 witness: the same flag in query (`false`) and header (`true`) resolves
to the header's value in the derived context. -/
theorem header_after_query_witness :
    collectVal headerPfx "paginate" [("X-Feature-Paginate", ["true"])] = some true ∧
    ctxValue
      (ReqWithFeatureCtx
        { ctx := Ctx.base
          query := [("feature-paginate", ["false"])]
          header := [("X-Feature-Paginate", ["true"])] }).ctx "paginate" =
      some (GoVal.bool true) :=
  ⟨by decide,
   (header_after_query
      { ctx := Ctx.base
        query := [("feature-paginate", ["false"])]
        header := [("X-Feature-Paginate", ["true"])] } "paginate" true).1 (by decide)⟩

/-- C5 counterexample: the source parses values with Go's `strconv.ParseBool`,
which also accepts the spellings `True` and `False`; so the non-empty value
`True` — outside the claim's literal sets, hence `false` under the claim's
rule — is recorded as `true` in the derived context. -/
theorem extraction_literals_cex :
    claimLiteralVal "True" = false ∧
    ctxValue (fromValues Ctx.base [("feature-x", ["True"])] queryPfx) "x" =
      some (GoVal.bool true) := by
  refine ⟨by decide, by decide⟩

/-- C5 (amended): the extractor processes exactly the entries whose
lower-cased key starts with the given marker string, strips it to obtain the
flag name, and records: `true` when the value is the empty string; the
conventional boolean for the spellings Go's `strconv.ParseBool` accepts —
`1`, `t`, `T`, `true`, `TRUE`, `True` give `true` and `0`, `f`, `F`,
`false`, `FALSE`, `False` give `false` — and `false` for any other
non-empty value. -/
theorem extraction_value_rules (ctx : Ctx) (key : String) (vals : List String)
    (pfx : String) (k : Feature) :
    (entryFlag pfx key = none → fromValues ctx [(key, vals)] pfx = ctx) ∧
    (entryFlag pfx key = some k →
       ctxValue (fromValues ctx [(key, vals)] pfx) k = some (GoVal.bool (entryBool vals))) ∧
    (valuesGet vals = "" → entryBool vals = true) ∧
    (∀ t, t ∈ trueLits → valuesGet vals = t → entryBool vals = true) ∧
    (∀ t, t ∈ falseLits → valuesGet vals = t → entryBool vals = false) ∧
    (valuesGet vals ≠ "" → ¬ valuesGet vals ∈ trueLits → entryBool vals = false) := by
  refine ⟨?_, ?_, ?_, ?_, ?_, ?_⟩
  · intro h
    have hp : ¬ goHasPrefix (goToLower key) pfx = true := by
      intro hp
      simp [entryFlag, hp] at h
    show fromValuesStep pfx ctx (key, vals) = ctx
    simp [fromValuesStep, hp]
  · intro h
    have h1 : ctxValue (fromValues ctx [(key, vals)] pfx) k =
        if entryFlag pfx key = some k then some (GoVal.bool (entryBool vals))
        else ctxValue ctx k := ctxValue_fromValuesStep pfx ctx (key, vals) k
    rw [h1, if_pos h]
  · intro h
    simp [entryBool, h]
  · intro t ht hv
    unfold entryBool
    rw [hv]
    fin_cases ht <;> decide
  · intro t ht hv
    unfold entryBool
    rw [hv]
    fin_cases ht <;> decide
  · intro hne hnt
    have h2 : (parseBool (valuesGet vals)).getD false = false := by
      cases h : parseBool (valuesGet vals) with
      | none => rfl
      | some b =>
        cases b with
        | false => rfl
        | true =>
          exfalso
          apply hnt
          unfold parseBool at h
          by_cases c1 : valuesGet vals = "1" ∨ valuesGet vals = "t" ∨ valuesGet vals = "T" ∨
              valuesGet vals = "true" ∨ valuesGet vals = "TRUE" ∨ valuesGet vals = "True"
          · simp only [trueLits, List.mem_cons, List.not_mem_nil, or_false]
            tauto
          · rw [if_neg c1] at h
            by_cases c2 : valuesGet vals = "0" ∨ valuesGet vals = "f" ∨ valuesGet vals = "F" ∨
                valuesGet vals = "false" ∨ valuesGet vals = "FALSE" ∨ valuesGet vals = "False"
            · rw [if_pos c2] at h
              exact Bool.noConfusion (Option.some.inj h)
            · rw [if_neg c2] at h
              exact Option.noConfusion h
    unfold entryBool
    rw [h2]
    simp [hne]

/-- C5 witness: a `feature-` query key is processed, the marker is stripped,
and the value `0` records `false`. -/
theorem extraction_value_rules_witness :
    entryFlag queryPfx "feature-x" = some "x" ∧
    ctxValue (fromValues Ctx.base [("feature-x", ["0"])] queryPfx) "x" =
      some (GoVal.bool false) := by
  refine ⟨by decide, ?_⟩
  have h := (extraction_value_rules Ctx.base "feature-x" ["0"] queryPfx "x").2.1 (by decide)
  rw [h]
  decide

/-- C6: with no context entry for the normalized flag, `IsEnabled` reads the
variable `X_FEATURE_` followed by the upper-cased flag name: a non-empty
value makes the layer defined with the lenient `strconv.ParseBool` result
(parse failures swallowed to `false`); an unset or empty variable falls
through to the registry; and the result depends on the environment only
through that one variable. -/
theorem env_layer_rules (env : Env) (reg : Registry) (ctx : Ctx) (name : Feature)
    (hctx : ctxValue ctx (goToLower name) = none) :
    (env (envPfx ++ goToUpper name) ≠ "" →
       IsEnabled env reg ctx name =
         some ((parseBool (env (envPfx ++ goToUpper name))).getD false)) ∧
    (env (envPfx ++ goToUpper name) = "" →
       IsEnabled env reg ctx name = some ((reg (goToLower name)).getD false)) ∧
    (∀ env2 : Env, env2 (envPfx ++ goToUpper name) = env (envPfx ++ goToUpper name) →
       IsEnabled env2 reg ctx name = IsEnabled env reg ctx name) := by
  refine ⟨?_, ?_, ?_⟩
  · intro he
    rw [isEnabled_eq, hctx]
    simp [he]
  · intro he
    rw [isEnabled_eq, hctx]
    simp [he]
  · intro env2 he
    rw [isEnabled_eq, isEnabled_eq, hctx, he]

/-- C6 witness: `X_FEATURE_PAGINATE=1` with no context entry resolves
`true`. -/
theorem env_layer_rules_witness :
    IsEnabled (fun k => if k = "X_FEATURE_PAGINATE" then "1" else "") regEmpty Ctx.base
      "paginate" = some true := by
  have h := (env_layer_rules (fun k => if k = "X_FEATURE_PAGINATE" then "1" else "")
    regEmpty Ctx.base "paginate" rfl).1 (by decide)
  rw [h]
  decide

/-- C7: `EnableInCtx` and `DisableInCtx` never mutate their input context:
each returns a new chain link recording the boolean for the flag, whose
parent is the input context itself, and every lookup for another key
delegates to the input chain unchanged — so each resolution against the
original context yields what it yielded before the derivation. -/
theorem ctx_derivation_frame (ctx : Ctx) (f k : Feature) :
    ctxValue (EnableInCtx ctx f) f = some (GoVal.bool true) ∧
    ctxValue (DisableInCtx ctx f) f = some (GoVal.bool false) ∧
    ctxParent (EnableInCtx ctx f) = some ctx ∧
    ctxParent (DisableInCtx ctx f) = some ctx ∧
    (k ≠ f →
       ctxValue (EnableInCtx ctx f) k = ctxValue ctx k ∧
       ctxValue (DisableInCtx ctx f) k = ctxValue ctx k) := by
  refine ⟨by simp [EnableInCtx, ctxValue], by simp [DisableInCtx, ctxValue], rfl, rfl, ?_⟩
  intro hk
  constructor <;> simp [EnableInCtx, DisableInCtx, ctxValue, hk]

/-- C7 witness: deriving a context for `paginate` leaves the lookup of
another key in the original chain untouched. -/
theorem ctx_derivation_frame_witness :
    ("other" : Feature) ≠ "paginate" ∧
    ctxValue (EnableInCtx Ctx.base "paginate") "other" = ctxValue Ctx.base "other" :=
  ⟨by decide, ((ctx_derivation_frame Ctx.base "paginate" "other").2.2.2.2 (by decide)).1⟩

/-- C8: `ReqWithFeatureCtx` is a non-mutating transform: the returned request
keeps the query parameters and headers of the input verbatim and is bound to
the derived context, inside which the input's context chain appears intact
as an ancestor link; the input request value itself is left unmodified. -/
theorem req_with_feature_ctx_frame (req : Request) :
    (ReqWithFeatureCtx req).query = req.query ∧
    (ReqWithFeatureCtx req).header = req.header ∧
    isAncestor req.ctx (ReqWithFeatureCtx req).ctx := by
  refine ⟨rfl, rfl, ?_⟩
  exact isAncestor_fromValues headerPfx req.header req.ctx _
    (isAncestor_fromValues queryPfx req.query req.ctx req.ctx (isAncestor_refl req.ctx))

/-- C9 counterexample: the operations are not total on every input: when an
outside caller stored a non-boolean under a `Feature`-typed key, the type
assertion `v.(bool)` in `IsEnabled` panics (modelled by `none`), a fault
surfaced to the caller. -/
theorem isEnabled_nonbool_panic_cex :
    IsEnabled envEmpty regEmpty (Ctx.withValue Ctx.base "f" (GoVal.nonBool 0)) "f" =
      none := by
  decide

/-- C9 (amended): no core operation returns an error value, and on every
context whose `Feature`-typed entries are all booleans each operation is
total; every boolean-parsing ambiguity in environment, query, or header
values silently resolves to `false` rather than raising a fault. The one
remaining fault is `IsEnabled`'s context type assertion, which panics when
an outside caller stored a non-boolean under a `Feature`-typed key. -/
theorem operations_total (env : Env) (reg : Registry) (ctx : Ctx) (name : Feature)
    (h : ctxAllBool ctx = true) :
    (IsEnabled env reg ctx name).isSome = true ∧
    (∀ s : String, s ≠ "" → parseBool s = none →
       env (envPfx ++ goToUpper name) = s → ctxValue ctx (goToLower name) = none →
       IsEnabled env reg ctx name = some false) ∧
    (∀ (key : String) (vals : List String) (k : Feature),
       entryFlag queryPfx key = some k → valuesGet vals ≠ "" →
       parseBool (valuesGet vals) = none →
       ctxValue (fromValues ctx [(key, vals)] queryPfx) k = some (GoVal.bool false)) := by
  refine ⟨isEnabled_isSome_of_allBool env reg ctx name h, ?_, ?_⟩
  · intro s hs hp he hc
    rw [isEnabled_eq, hc, he]
    simp [hs, hp]
  · intro key vals k hk hv hp
    have h1 : ctxValue (fromValues ctx [(key, vals)] queryPfx) k =
        if entryFlag queryPfx key = some k then some (GoVal.bool (entryBool vals))
        else ctxValue ctx k := ctxValue_fromValuesStep queryPfx ctx (key, vals) k
    rw [h1, if_pos hk]
    unfold entryBool
    simp [hv, hp]

/-- C9 witness: an unparseable environment value resolves to `false` instead
of erroring. -/
theorem operations_total_witness :
    IsEnabled (fun k => if k = "X_FEATURE_PAGINATE" then "banana" else "") regEmpty Ctx.base
      "paginate" = some false :=
  (operations_total (fun k => if k = "X_FEATURE_PAGINATE" then "banana" else "") regEmpty
      Ctx.base "paginate" rfl).2.1 "banana" (by decide) (by decide) (by decide) rfl

/-- C10: every context built by the package's own derivations — `EnableInCtx`,
`DisableInCtx`, extraction, `ReqWithFeatureCtx` — from a base holding no
value under a `Feature`-typed key stores only booleans under `Feature`-typed
keys, so the type assertion in `IsEnabled` always succeeds and resolution
never panics on such contexts. -/
theorem built_ctx_never_panics (ctx : Ctx) (h : BuiltCtx ctx) :
    ctxAllBool ctx = true ∧
    (∀ k v, ctxValue ctx k = some v → isBoolVal v = true) ∧
    ∀ (env : Env) (reg : Registry) (name : Feature),
      (IsEnabled env reg ctx name).isSome = true := by
  have hb := ctxAllBool_of_built ctx h
  refine ⟨hb, ?_, ?_⟩
  · intro k v hv
    obtain ⟨b, rfl⟩ := ctxValue_allBool k v ctx hb hv
    rfl
  · intro env reg name
    exact isEnabled_isSome_of_allBool env reg ctx name hb

/-- C10 witness: a context built by an `EnableInCtx` derivation followed by an
extraction never makes `IsEnabled` panic. -/
theorem built_ctx_never_panics_witness :
    (IsEnabled envEmpty regEmpty
        (fromValues (EnableInCtx Ctx.base "a") [("feature-b", ["x"])] queryPfx) "b").isSome =
      true :=
  (built_ctx_never_panics _
      (BuiltCtx.extract _ _ _ (BuiltCtx.enable Ctx.base "a" BuiltCtx.base))).2.2
    envEmpty regEmpty "b"

end Feat
